import Mathlib

/-
Shallow embedding of MacroNoMore.cpp, a Clang-tool source obfuscator.

The tool walks the AST of one translation unit, assigns each distinct
symbol key (variable/function name, stripped operator name, integer
literal rendering, quoted string literal) a pseudorandom 8-character
alias on first sight, records every occurrence location, rewrites each
recorded location in the original buffer, and emits one define-line per
distinct key.

Buffers are `List Char`.  The C `rand()` stream is injectable as a
function `Nat → Nat` consumed at an explicit counter held in the state.
Source locations are byte offsets into the original buffer, as provided
by the external Parser/Locator.
-/

def lettersL : List Char :=
  "ABCDEFGHIJKLMNOPQRSTUVWXYZabcdefghijklmnopqrstuvwxyz".toList

def alphanumL : List Char :=
  "0123456789ABCDEFGHIJKLMNOPQRSTUVWXYZabcdefghijklmnopqrstuvwxyz".toList

/- Embeds `generateRandomAlias`: one letter then seven alphanumerics, each
drawn with `rand() % setSize`; returns the alias and the advanced counter. -/
def generateRandomAlias (rng : Nat → Nat) (t : Nat) : List Char × Nat :=
  (lettersL.getD (rng t % lettersL.length) 'A' ::
    (List.range 7).map (fun i => alphanumL.getD (rng (t + 1 + i) % alphanumL.length) 'A'),
   t + 8)

/- Association-list model of `std::unordered_map` lookup (`find`). -/
def mapGet {α : Type} : List (List Char × α) → List Char → Option α
  | [], _ => none
  | (k, v) :: rest, key => if k = key then some v else mapGet rest key

/- Embeds `nameLocations[name].push_back(loc)`. -/
def recordLoc : List (List Char × List Nat) → List Char → Nat → List (List Char × List Nat)
  | [], key, loc => [(key, [loc])]
  | (k, ls) :: rest, key, loc =>
      if k = key then (k, ls ++ [loc]) :: rest else (k, ls) :: recordLoc rest key loc

structure VisitorState where
  aliases : List (List Char × List Char)
  nameLocations : List (List Char × List Nat)
  t : Nat
deriving DecidableEq

def initState : VisitorState := ⟨[], [], 0⟩

/- The shared body of all five Visit callbacks: allocate a fresh alias if
the key is new, then append the location. -/
def recordKey (rng : Nat → Nat) (st : VisitorState) (key : List Char) (loc : Nat) : VisitorState :=
  let st' :=
    if (mapGet st.aliases key).isSome then st
    else { st with aliases := st.aliases ++ [(key, (generateRandomAlias rng st.t).1)],
                   t := (generateRandomAlias rng st.t).2 }
  { st' with nameLocations := recordLoc st'.nameLocations key loc }

/- Embeds `isPredefinedIdentifier`. -/
def isPredefinedIdentifierL (name : List Char) : Bool :=
  ["cout".toList, "cin".toList, "cerr".toList, "clog".toList].contains name

/- Embeds `isOperator`: `name.find("operator") == 0`. -/
def isOperatorL (name : List Char) : Bool :=
  ("operator".toList).isPrefixOf name

/- Embeds the key computed by `VisitIntegerLiteral`: the call
`Literal->getValue().toString(value, 10, true, false)` renders the
literal's APInt (of the width of the literal's type) in radix 10 with
`Signed = true`: a set top bit prints as minus the two's-complement
negation. -/
def apIntSignedDecimal (width bits : Nat) : List Char :=
  if 2 ^ width ≤ 2 * (bits % 2 ^ width) then
    '-' :: Nat.toDigits 10 (2 ^ width - bits % 2 ^ width)
  else
    Nat.toDigits 10 (bits % 2 ^ width)

/- Embeds `VisitVarDecl`. -/
def VisitVarDecl (rng : Nat → Nat) (st : VisitorState) (name : List Char) (loc : Nat)
    (inMain : Bool) : VisitorState :=
  if inMain then recordKey rng st name loc else st

/- Embeds `VisitDeclRefExpr`: eligible when in the main file or on the
allow-list; the "operator" prefix is stripped before the key is used. -/
def VisitDeclRefExpr (rng : Nat → Nat) (st : VisitorState) (name : List Char) (loc : Nat)
    (inMain : Bool) : VisitorState :=
  if inMain || isPredefinedIdentifierL name then
    recordKey rng st (if isOperatorL name then name.drop 8 else name) loc
  else st

/- Embeds `VisitIntegerLiteral`. -/
def VisitIntegerLiteral (rng : Nat → Nat) (st : VisitorState) (width bits : Nat) (loc : Nat)
    (inMain : Bool) : VisitorState :=
  if inMain then recordKey rng st (apIntSignedDecimal width bits) loc else st

/- Embeds `VisitStringLiteral`: the key is the content wrapped in quotes. -/
def VisitStringLiteral (rng : Nat → Nat) (st : VisitorState) (content : List Char) (loc : Nat)
    (inMain : Bool) : VisitorState :=
  if inMain then recordKey rng st ('"' :: (content ++ ['"'])) loc else st

/- Embeds `VisitFunctionDecl`. -/
def VisitFunctionDecl (rng : Nat → Nat) (st : VisitorState) (name : List Char) (loc : Nat)
    (inMain : Bool) : VisitorState :=
  if inMain then recordKey rng st name loc else st

/- One token-occurrence as delivered by the external Parser/Locator. -/
inductive Occ where
  | varDecl (name : List Char) (loc : Nat) (inMain : Bool)
  | declRef (name : List Char) (loc : Nat) (inMain : Bool)
  | intLit (width bits : Nat) (loc : Nat) (inMain : Bool)
  | strLit (content : List Char) (loc : Nat) (inMain : Bool)
  | funcDecl (name : List Char) (loc : Nat) (inMain : Bool)
deriving DecidableEq

def visitOcc (rng : Nat → Nat) (st : VisitorState) : Occ → VisitorState
  | .varDecl name loc inMain => VisitVarDecl rng st name loc inMain
  | .declRef name loc inMain => VisitDeclRefExpr rng st name loc inMain
  | .intLit width bits loc inMain => VisitIntegerLiteral rng st width bits loc inMain
  | .strLit content loc inMain => VisitStringLiteral rng st content loc inMain
  | .funcDecl name loc inMain => VisitFunctionDecl rng st name loc inMain

/- The traversal: fold the visitor over the occurrence stream. -/
def runVisitor (rng : Nat → Nat) (occs : List Occ) : VisitorState :=
  occs.foldl (visitOcc rng) initState

/- The key an occurrence is filed under, or `none` when ineligible. -/
def occKey : Occ → Option (List Char)
  | .varDecl name _ inMain => if inMain then some name else none
  | .declRef name _ inMain =>
      if inMain || isPredefinedIdentifierL name then
        some (if isOperatorL name then name.drop 8 else name)
      else none
  | .intLit width bits _ inMain => if inMain then some (apIntSignedDecimal width bits) else none
  | .strLit content _ inMain => if inMain then some ('"' :: (content ++ ['"'])) else none
  | .funcDecl name _ inMain => if inMain then some name else none

def occLoc : Occ → Nat
  | .varDecl _ loc _ => loc
  | .declRef _ loc _ => loc
  | .intLit _ _ loc _ => loc
  | .strLit _ loc _ => loc
  | .funcDecl _ loc _ => loc

/- Keys of the eligible occurrences of a stream, in traversal order. -/
def eligibleKeys (occs : List Occ) : List (List Char) :=
  occs.filterMap occKey

def locsOf (st : VisitorState) (key : List Char) : List Nat :=
  (mapGet st.nameLocations key).getD []

/- Embeds `InsertAliases`: one line `#define <alias> <key>` per entry. -/
def InsertAliases (st : VisitorState) : List (List Char) :=
  st.aliases.map (fun e => "#define ".toList ++ e.2 ++ [' '] ++ e.1)

/- One `Rewriter::ReplaceText(loc, len, text)` request, in original-buffer
coordinates. -/
structure Edit where
  offset : Nat
  len : Nat
  repl : List Char
deriving DecidableEq

/- Embeds `ReplaceReferences`: for every alias entry and every recorded
location, request replacement of key-length characters by the alias. -/
def ReplaceReferences (st : VisitorState) : List Edit :=
  st.aliases.foldr
    (fun e acc => ((locsOf st e.1).map (fun loc => Edit.mk loc e.1.length e.2)) ++ acc) []

/- Embeds the exit behaviour of `main`: usage error, unreadable input and
unwritable output each return 1 before any processing; the boolean result
of `tooling::runToolOnCode` is discarded and `main` returns 0. -/
def mainExit (argcOk inOpen outOpen parseOk : Bool) : Nat :=
  if argcOk = false then 1
  else if inOpen = false then 1
  else if outOpen = false then 1
  else 0

/- The Rewriter abstraction: all edits are addressed in original-buffer
coordinates; materialization composes them over the buffer in offset
order, independent of the order the `ReplaceText` calls were issued. -/
def applyEdits : List Char → Nat → List Edit → List Char
  | buf, _, [] => buf
  | buf, base, e :: es =>
      buf.take (e.offset - base) ++ e.repl ++
        applyEdits (buf.drop (e.offset + e.len - base)) (e.offset + e.len) es

def sortEdits (es : List Edit) : List Edit :=
  List.insertionSort (fun a b => a.offset ≤ b.offset) es

def sortedEdits (st : VisitorState) : List Edit :=
  sortEdits (ReplaceReferences st)

/- The rewritten main-file buffer written by `EndSourceFileAction`. -/
def rewriteResult (buf : List Char) (st : VisitorState) : List Char :=
  applyEdits buf 0 (sortedEdits st)

def sliceL (l : List Char) (off len : Nat) : List Char := (l.drop off).take len

/- Position, in the rewritten buffer, of the j-th sorted edit's replacement. -/
def posOf : Nat → List Edit → Nat → Nat
  | _, [], _ => 0
  | base, e :: _, 0 => e.offset - base
  | base, e :: es, j + 1 => (e.offset - base) + e.repl.length + posOf (e.offset + e.len) es j

/- Position, in the rewritten buffer, of an original offset that lies
outside every edit. -/
def unPos : Nat → List Edit → Nat → Nat
  | base, [], p => p - base
  | base, e :: es, p =>
      if p < e.offset then p - base
      else (e.offset - base) + e.repl.length + unPos (e.offset + e.len) es p

theorem dropAppendLen {α : Type} (x y : List α) (n : Nat) (h : n = x.length) :
    (x ++ y).drop n = y := by
  subst h; simp

theorem takeAppendLen {α : Type} (x y : List α) (n : Nat) (h : n = x.length) :
    (x ++ y).take n = x := by
  subst h; simp

theorem dropAppendAdd {α : Type} (x y : List α) (k : Nat) :
    (x ++ y).drop (x.length + k) = y.drop k := by
  induction x with
  | nil => simp
  | cons c x ih => simpa [Nat.succ_add] using ih

theorem getAppendAdd {α : Type} (x y : List α) (k : Nat) :
    (x ++ y)[x.length + k]? = y[k]? := by
  induction x with
  | nil => simp
  | cons c x ih => simpa [Nat.succ_add] using ih

theorem applyEdits_slice_at :
    ∀ (es : List Edit) (buf : List Char) (base : Nat),
      List.Pairwise (fun a b => a.offset + a.len ≤ b.offset) es →
      (∀ e ∈ es, base ≤ e.offset) →
      (∀ e ∈ es, e.offset + e.len ≤ base + buf.length) →
      ∀ j e, es[j]? = some e →
        sliceL (applyEdits buf base es) (posOf base es j) e.repl.length = e.repl := by
  intro es
  induction es with
  | nil => intro buf base _ _ _ j e h; simp at h
  | cons e0 es ih =>
    intro buf base hch hlo hhi j e hj
    have hlo0 : base ≤ e0.offset := hlo e0 (by simp)
    have hhi0 : e0.offset + e0.len ≤ base + buf.length := hhi e0 (by simp)
    have hlenA : (buf.take (e0.offset - base)).length = e0.offset - base := by
      rw [List.length_take]; omega
    cases j with
    | zero =>
      have he : e0 = e := by simpa using hj
      subst he
      show sliceL (buf.take (e0.offset - base) ++ e0.repl ++ _) (e0.offset - base)
        e0.repl.length = e0.repl
      unfold sliceL
      rw [List.append_assoc, dropAppendLen _ _ _ hlenA.symm, takeAppendLen _ _ _ rfl]
    | succ j =>
      have hj' : es[j]? = some e := by simpa using hj
      show sliceL (buf.take (e0.offset - base) ++ e0.repl ++ _)
        ((e0.offset - base) + e0.repl.length + posOf (e0.offset + e0.len) es j)
        e.repl.length = e.repl
      unfold sliceL
      have harr : (e0.offset - base) + e0.repl.length + posOf (e0.offset + e0.len) es j =
          (buf.take (e0.offset - base) ++ e0.repl).length + posOf (e0.offset + e0.len) es j := by
        rw [List.length_append, hlenA]
      rw [List.append_assoc, ← List.append_assoc, harr, dropAppendAdd]
      have hlo' : ∀ e' ∈ es, e0.offset + e0.len ≤ e'.offset := fun e' he' =>
        List.rel_of_pairwise_cons hch he'
      have hhi' : ∀ e' ∈ es,
          e'.offset + e'.len ≤ (e0.offset + e0.len) + (buf.drop (e0.offset + e0.len - base)).length := by
        intro e' he'
        have h1 := hhi e' (List.mem_cons_of_mem _ he')
        rw [List.length_drop]
        omega
      exact ih _ _ hch.of_cons hlo' hhi' j e hj'

theorem getTakeLt {α : Type} (l : List α) (n m : Nat) (h : m < n) :
    (l.take n)[m]? = l[m]? := by
  rcases Nat.lt_or_ge m l.length with hm | hm
  · rw [List.getElem?_take]
    simp [h]
  · rw [List.getElem?_eq_none, List.getElem?_eq_none hm]
    rw [List.length_take]
    omega

theorem getDropAdd {α : Type} (l : List α) (n m : Nat) :
    (l.drop n)[m]? = l[n + m]? := by
  rw [List.getElem?_drop]

theorem applyEdits_frame :
    ∀ (es : List Edit) (buf : List Char) (base p : Nat),
      List.Pairwise (fun a b => a.offset + a.len ≤ b.offset) es →
      (∀ e ∈ es, base ≤ e.offset) →
      (∀ e ∈ es, e.offset + e.len ≤ base + buf.length) →
      base ≤ p → p < base + buf.length →
      (∀ e ∈ es, p < e.offset ∨ e.offset + e.len ≤ p) →
      (applyEdits buf base es)[unPos base es p]? = buf[p - base]? := by
  intro es
  induction es with
  | nil => intro buf base p _ _ _ _ _ _; rfl
  | cons e0 es ih =>
    intro buf base p hch hlo hhi hbp hpb hout
    have hlo0 : base ≤ e0.offset := hlo e0 (by simp)
    have hhi0 : e0.offset + e0.len ≤ base + buf.length := hhi e0 (by simp)
    have hlenA : (buf.take (e0.offset - base)).length = e0.offset - base := by
      rw [List.length_take]; omega
    rcases hout e0 (by simp) with hpe | hep
    · show (buf.take (e0.offset - base) ++ e0.repl ++ _)[unPos base (e0 :: es) p]? = _
      have hu : unPos base (e0 :: es) p = p - base := by
        simp only [unPos]; rw [if_pos hpe]
      rw [hu, List.append_assoc]
      have h1 : p - base < (buf.take (e0.offset - base)).length := by rw [hlenA]; omega
      rw [List.getElem?_append, if_pos h1, getTakeLt _ _ _ (by omega)]
    · have hnp : ¬ p < e0.offset := by omega
      have hu : unPos base (e0 :: es) p =
          (e0.offset - base) + e0.repl.length + unPos (e0.offset + e0.len) es p := by
        simp only [unPos]; rw [if_neg hnp]
      show (buf.take (e0.offset - base) ++ e0.repl ++ _)[unPos base (e0 :: es) p]? = _
      have harr : unPos base (e0 :: es) p =
          (buf.take (e0.offset - base) ++ e0.repl).length + unPos (e0.offset + e0.len) es p := by
        rw [hu, List.length_append, hlenA]
      rw [harr, getAppendAdd]
      have hlo' : ∀ e' ∈ es, e0.offset + e0.len ≤ e'.offset := fun e' he' =>
        List.rel_of_pairwise_cons hch he'
      have hhi' : ∀ e' ∈ es,
          e'.offset + e'.len ≤ (e0.offset + e0.len) + (buf.drop (e0.offset + e0.len - base)).length := by
        intro e' he'
        have h1 := hhi e' (List.mem_cons_of_mem _ he')
        rw [List.length_drop]
        omega
      have hpb' : p < (e0.offset + e0.len) + (buf.drop (e0.offset + e0.len - base)).length := by
        rw [List.length_drop]; omega
      have hout' : ∀ e' ∈ es, p < e'.offset ∨ e'.offset + e'.len ≤ p :=
        fun e' he' => hout e' (List.mem_cons_of_mem _ he')
      rw [ih _ _ _ hch.of_cons hlo' hhi' hep hpb' hout', getDropAdd]
      congr 1
      omega

theorem mapGet_mem {α : Type} :
    ∀ (m : List (List Char × α)) (k : List Char) (v : α), mapGet m k = some v → (k, v) ∈ m := by
  intro m
  induction m with
  | nil => intro k v h; simp [mapGet] at h
  | cons p m ih =>
    intro k v h
    obtain ⟨a, b⟩ := p
    by_cases hk : a = k
    · subst hk
      simp [mapGet] at h
      simp [h]
    · simp [mapGet, hk] at h
      exact List.mem_cons_of_mem _ (ih k v h)

theorem foldrAppend_mem {α β : Type} (g : α → List β) (x : β) :
    ∀ (l : List α), (x ∈ l.foldr (fun p acc => g p ++ acc) []) ↔ ∃ p, p ∈ l ∧ x ∈ g p := by
  intro l
  induction l with
  | nil => simp
  | cons a l ih => simp [ih, or_and_right, exists_or]

theorem mem_ReplaceReferences (st : VisitorState) (k a : List Char) (loc : Nat)
    (hka : mapGet st.aliases k = some a) (hloc : loc ∈ locsOf st k) :
    Edit.mk loc k.length a ∈ ReplaceReferences st := by
  unfold ReplaceReferences
  rw [foldrAppend_mem]
  refine ⟨(k, a), mapGet_mem _ _ _ hka, ?_⟩
  simp only [List.mem_map]
  exact ⟨loc, hloc, rfl⟩

theorem ReplaceReferences_mem_inv (st : VisitorState) (e : Edit)
    (he : e ∈ ReplaceReferences st) :
    ∃ k a, (k, a) ∈ st.aliases ∧ e.offset ∈ locsOf st k ∧ e = Edit.mk e.offset k.length a := by
  unfold ReplaceReferences at he
  rw [foldrAppend_mem] at he
  obtain ⟨p, hp, hmem⟩ := he
  obtain ⟨loc, hloc, rfl⟩ := List.mem_map.mp hmem
  exact ⟨p.1, p.2, hp, hloc, rfl⟩

/-- C1: for every span recorded under a symbol key during traversal (a
location `loc` filed under key `k`, spanning `k.length` characters), the
character range at that span's image in the rewritten buffer equals the
key's assigned alias, and every byte of the original buffer lying outside
all recorded spans is unchanged, reappearing at its shifted position;
stated under the spec invariant that the recorded spans are pairwise
non-overlapping (in offset order) and lie within the buffer. -/
theorem rewritten_spans_alias_and_frame (rng : Nat → Nat) (occs : List Occ)
    (buf : List Char) (st : VisitorState) (hst : st = runVisitor rng occs)
    (hov : List.Pairwise (fun a b => a.offset + a.len ≤ b.offset) (sortedEdits st))
    (hbd : ∀ e ∈ sortedEdits st, e.offset + e.len ≤ buf.length) :
    (∀ k a loc, mapGet st.aliases k = some a → loc ∈ locsOf st k →
      ∃ j, (sortedEdits st)[j]? = some (Edit.mk loc k.length a) ∧
        sliceL (rewriteResult buf st) (posOf 0 (sortedEdits st) j) a.length = a) ∧
    (∀ p, p < buf.length → (∀ e ∈ sortedEdits st, p < e.offset ∨ e.offset + e.len ≤ p) →
      (rewriteResult buf st)[unPos 0 (sortedEdits st) p]? = buf[p]?) := by
  constructor
  · intro k a loc hka hloc
    have hmem : Edit.mk loc k.length a ∈ ReplaceReferences st :=
      mem_ReplaceReferences st k a loc hka hloc
    have hmem' : Edit.mk loc k.length a ∈ sortedEdits st := by
      unfold sortedEdits sortEdits
      exact ((List.perm_insertionSort _ _).mem_iff).mpr hmem
    obtain ⟨j, hj⟩ := List.mem_iff_getElem?.mp hmem'
    refine ⟨j, hj, ?_⟩
    have h := applyEdits_slice_at (sortedEdits st) buf 0 hov (fun e _ => Nat.zero_le _)
      (fun e he => by simpa using hbd e he) j _ hj
    simpa using h
  · intro p hp hout
    have h := applyEdits_frame (sortedEdits st) buf 0 p hov (fun e _ => Nat.zero_le _)
      (fun e he => by simpa using hbd e he) (Nat.zero_le _) (by simpa using hp) hout
    simpa using h

/- A small concrete run used by the witness theorems: the unit
`int x = 5;` with `x` declared at offset 4 and the literal at offset 8. -/
def occsW : List Occ :=
  [Occ.varDecl ("x".toList) 4 true, Occ.intLit 32 5 8 true]

def bufW : List Char := "int x = 5;".toList

def rngW : Nat → Nat := fun n => n

theorem rewritten_spans_alias_and_frame_witness :
    (List.Pairwise (fun a b => a.offset + a.len ≤ b.offset)
        (sortedEdits (runVisitor rngW occsW)) ∧
      ∀ e ∈ sortedEdits (runVisitor rngW occsW), e.offset + e.len ≤ bufW.length) ∧
    ((∀ k a loc, mapGet (runVisitor rngW occsW).aliases k = some a →
        loc ∈ locsOf (runVisitor rngW occsW) k →
      ∃ j, (sortedEdits (runVisitor rngW occsW))[j]? = some (Edit.mk loc k.length a) ∧
        sliceL (rewriteResult bufW (runVisitor rngW occsW))
          (posOf 0 (sortedEdits (runVisitor rngW occsW)) j) a.length = a) ∧
    (∀ p, p < bufW.length →
      (∀ e ∈ sortedEdits (runVisitor rngW occsW), p < e.offset ∨ e.offset + e.len ≤ p) →
      (rewriteResult bufW (runVisitor rngW occsW))[unPos 0 (sortedEdits (runVisitor rngW occsW)) p]? =
        bufW[p]?)) :=
  ⟨⟨by decide, by decide⟩,
    rewritten_spans_alias_and_frame rngW occsW bufW _ rfl (by decide) (by decide)⟩

theorem getD_mem {α : Type} : ∀ (l : List α) (n : Nat) (d : α), n < l.length → l.getD n d ∈ l := by
  intro l
  induction l with
  | nil => intro n d h; simp at h
  | cons a l ih =>
    intro n d h
    cases n with
    | zero => exact List.mem_cons_self _ _
    | succ n => exact List.mem_cons_of_mem _ (ih n d (by simpa using h))

theorem mapGet_cons {α : Type} (a : List Char) (b : α) (l : List (List Char × α)) (k : List Char) :
    mapGet ((a, b) :: l) k = if a = k then some b else mapGet l k := rfl

theorem mapGet_append_some {α : Type} :
    ∀ (m m' : List (List Char × α)) (k : List Char) (v : α),
      mapGet m k = some v → mapGet (m ++ m') k = some v := by
  intro m m'
  induction m with
  | nil => intro k v h; simp [mapGet] at h
  | cons p m ih =>
    intro k v h
    obtain ⟨a, b⟩ := p
    rw [mapGet_cons] at h
    rw [List.cons_append, mapGet_cons]
    by_cases hk : a = k
    · rwa [if_pos hk] at h ⊢
    · rw [if_neg hk] at h ⊢
      exact ih k v h

theorem mapGet_none_iff {α : Type} :
    ∀ (m : List (List Char × α)) (k : List Char),
      mapGet m k = none ↔ k ∉ m.map Prod.fst := by
  intro m
  induction m with
  | nil => intro k; simp [mapGet]
  | cons p m ih =>
    intro k
    obtain ⟨a, b⟩ := p
    rw [mapGet_cons]
    by_cases hk : a = k
    · subst hk
      rw [if_pos rfl]
      constructor
      · intro h; exact (Option.some_ne_none b h).elim
      · intro h; exact (h (List.mem_map_of_mem Prod.fst (List.mem_cons_self _ _))).elim
    · rw [if_neg hk, ih, List.map_cons]
      simp only [List.mem_cons]
      constructor
      · intro h hmem
        rcases hmem with h1 | h2
        · exact hk h1.symm
        · exact h h2
      · intro h hmem
        exact h (Or.inr hmem)

theorem mapGet_isSome_iff {α : Type} (m : List (List Char × α)) (k : List Char) :
    ((mapGet m k).isSome = true) ↔ k ∈ m.map Prod.fst := by
  constructor
  · intro h
    obtain ⟨v, hv⟩ := Option.isSome_iff_exists.mp h
    exact List.mem_map_of_mem Prod.fst (mapGet_mem _ _ _ hv)
  · intro h
    cases hn : mapGet m k with
    | some v => rfl
    | none => exact ((mapGet_none_iff m k).mp hn h).elim

theorem mapGet_append_new {α : Type} :
    ∀ (m : List (List Char × α)) (k : List Char) (v : α),
      mapGet m k = none → mapGet (m ++ [(k, v)]) k = some v := by
  intro m
  induction m with
  | nil => intro k v _; simp [mapGet]
  | cons p m ih =>
    intro k v h
    obtain ⟨a, b⟩ := p
    rw [mapGet_cons] at h
    rw [List.cons_append, mapGet_cons]
    by_cases hk : a = k
    · rw [if_pos hk] at h; simp at h
    · rw [if_neg hk] at h ⊢
      exact ih k v h

theorem mapGet_recordLoc_self :
    ∀ (m : List (List Char × List Nat)) (k : List Char) (loc : Nat),
      mapGet (recordLoc m k loc) k = some ((mapGet m k).getD [] ++ [loc]) := by
  intro m
  induction m with
  | nil => intro k loc; simp [recordLoc, mapGet]
  | cons p m ih =>
    intro k loc
    obtain ⟨a, b⟩ := p
    by_cases hk : a = k
    · subst hk
      simp [recordLoc, mapGet_cons]
    · simp only [recordLoc, if_neg hk, mapGet_cons]
      exact ih k loc

theorem recordKey_aliases (rng : Nat → Nat) (st : VisitorState) (k : List Char) (loc : Nat) :
    (recordKey rng st k loc).aliases =
      if (mapGet st.aliases k).isSome then st.aliases
      else st.aliases ++ [(k, (generateRandomAlias rng st.t).1)] := by
  unfold recordKey
  split <;> rfl

theorem recordKey_nameLocations (rng : Nat → Nat) (st : VisitorState) (k : List Char) (loc : Nat) :
    (recordKey rng st k loc).nameLocations = recordLoc st.nameLocations k loc := by
  unfold recordKey
  split <;> rfl

theorem locsOf_recordKey_self (rng : Nat → Nat) (st : VisitorState) (k : List Char) (loc : Nat) :
    locsOf (recordKey rng st k loc) k = locsOf st k ++ [loc] := by
  unfold locsOf
  rw [recordKey_nameLocations, mapGet_recordLoc_self]
  simp

theorem recordKey_get_self (rng : Nat → Nat) (st : VisitorState) (k : List Char) (loc : Nat) :
    ∃ a, mapGet (recordKey rng st k loc).aliases k = some a := by
  rw [recordKey_aliases]
  cases h : mapGet st.aliases k with
  | some b => rw [if_pos (by simp [h])]; exact ⟨b, h⟩
  | none =>
      rw [if_neg (by simp [h])]
      exact ⟨_, mapGet_append_new _ _ _ h⟩

theorem isPrefixOf_append_self (xs ys : List Char) : xs.isPrefixOf (xs ++ ys) = true := by
  induction xs with
  | nil => simp [List.isPrefixOf]
  | cons c xs ih => simp [List.isPrefixOf, ih]

/-- C7: every alias produced by `generateRandomAlias` has length exactly 8,
its first character is drawn from the 52 upper/lower-case letters and each
of the remaining 7 characters from the 62 alphanumerics. -/
theorem generateRandomAlias_shape (rng : Nat → Nat) (t : Nat) :
    ∃ c cs, (generateRandomAlias rng t).1 = c :: cs ∧ c ∈ lettersL ∧ cs.length = 7 ∧
      (∀ x ∈ cs, x ∈ alphanumL) ∧ (generateRandomAlias rng t).1.length = 8 ∧
      lettersL.length = 52 ∧ alphanumL.length = 62 := by
  refine ⟨_, _, rfl, ?_, ?_, ?_, ?_, by decide, by decide⟩
  · exact getD_mem _ _ _ (Nat.mod_lt _ (by decide))
  · simp
  · intro x hx
    simp only [List.mem_map] at hx
    obtain ⟨i, _, rfl⟩ := hx
    exact getD_mem _ _ _ (Nat.mod_lt _ (by decide))
  · simp [generateRandomAlias]

/-- C5: an eligible reference whose textual name is `"operator" ++ s` is
filed under the key `s` — exactly the text after the 8-character prefix —
and a plain eligible reference named `s` (itself not operator-prefixed) is
filed under the same key, so the two are grouped together. -/
theorem operator_reference_key_suffix (rng : Nat → Nat) (st : VisitorState)
    (s : List Char) (loc : Nat) (inMain : Bool)
    (helig : inMain = true ∨ isPredefinedIdentifierL ("operator".toList ++ s) = true) :
    VisitDeclRefExpr rng st ("operator".toList ++ s) loc inMain = recordKey rng st s loc ∧
    locsOf (VisitDeclRefExpr rng st ("operator".toList ++ s) loc inMain) s =
      locsOf st s ++ [loc] ∧
    (∃ a, mapGet (VisitDeclRefExpr rng st ("operator".toList ++ s) loc inMain).aliases s = some a) ∧
    (isOperatorL s = false → ∀ loc', VisitDeclRefExpr rng st s loc' true = recordKey rng st s loc') := by
  have hcond : (inMain || isPredefinedIdentifierL ("operator".toList ++ s)) = true := by
    rcases helig with h | h
    · rw [h]; rfl
    · rw [h]; simp
  have hop : isOperatorL ("operator".toList ++ s) = true := isPrefixOf_append_self _ _
  have hdrop : ("operator".toList ++ s).drop 8 = s := dropAppendLen _ _ 8 (by decide)
  have heq : VisitDeclRefExpr rng st ("operator".toList ++ s) loc inMain = recordKey rng st s loc := by
    unfold VisitDeclRefExpr
    rw [if_pos hcond, if_pos hop, hdrop]
  refine ⟨heq, ?_, ?_, ?_⟩
  · rw [heq]; exact locsOf_recordKey_self rng st s loc
  · rw [heq]; exact recordKey_get_self rng st s loc
  · intro hs loc'
    unfold VisitDeclRefExpr
    rw [if_pos (by simp), if_neg (by simp [hs])]

theorem operator_reference_key_suffix_witness :
    (true = true ∨ isPredefinedIdentifierL ("operator".toList ++ "+".toList) = true) ∧
    (VisitDeclRefExpr rngW initState ("operator".toList ++ "+".toList) 0 true =
        recordKey rngW initState ("+".toList) 0 ∧
      locsOf (VisitDeclRefExpr rngW initState ("operator".toList ++ "+".toList) 0 true) ("+".toList) =
        locsOf initState ("+".toList) ++ [0] ∧
      (∃ a, mapGet (VisitDeclRefExpr rngW initState ("operator".toList ++ "+".toList) 0 true).aliases
        ("+".toList) = some a) ∧
      (isOperatorL ("+".toList) = false → ∀ loc',
        VisitDeclRefExpr rngW initState ("+".toList) loc' true =
          recordKey rngW initState ("+".toList) loc')) :=
  ⟨Or.inl rfl, operator_reference_key_suffix rngW initState ("+".toList) 0 true (Or.inl rfl)⟩

/-- C10: the allow-list is exactly the four identifiers cout, cin, cerr and
clog; it is consulted only for reference occurrences: declarations of
variables and functions, integer literals and string literals located
outside the main file are all ineligible no matter their name, while an
allow-listed reference outside the main file is still recorded. -/
theorem allowlist_exact_and_only_refs (rng : Nat → Nat) (st : VisitorState)
    (name content : List Char) (w bits loc : Nat) :
    (∀ n, isPredefinedIdentifierL n = true ↔
      (n = "cout".toList ∨ n = "cin".toList ∨ n = "cerr".toList ∨ n = "clog".toList)) ∧
    VisitVarDecl rng st name loc false = st ∧
    VisitFunctionDecl rng st name loc false = st ∧
    VisitIntegerLiteral rng st w bits loc false = st ∧
    VisitStringLiteral rng st content loc false = st ∧
    (isPredefinedIdentifierL name = true →
      VisitDeclRefExpr rng st name loc false =
        recordKey rng st (if isOperatorL name then name.drop 8 else name) loc) := by
  refine ⟨?_, rfl, rfl, rfl, rfl, ?_⟩
  · intro n
    simp [isPredefinedIdentifierL, List.contains]
  · intro h
    unfold VisitDeclRefExpr
    rw [if_pos (by simp [h])]

theorem allowlist_exact_and_only_refs_witness :
    (isPredefinedIdentifierL ("cout".toList) = true ↔
      ("cout".toList = "cout".toList ∨ "cout".toList = "cin".toList ∨
        "cout".toList = "cerr".toList ∨ "cout".toList = "clog".toList)) ∧
    VisitVarDecl rngW initState ("cout".toList) 0 false = initState ∧
    (isPredefinedIdentifierL ("cout".toList) = true →
      VisitDeclRefExpr rngW initState ("cout".toList) 0 false =
        recordKey rngW initState
          (if isOperatorL ("cout".toList) then ("cout".toList).drop 8 else "cout".toList) 0) :=
  ⟨(allowlist_exact_and_only_refs rngW initState ("cout".toList) ("".toList) 0 0 0).1 ("cout".toList),
   (allowlist_exact_and_only_refs rngW initState ("cout".toList) ("".toList) 0 0 0).2.1,
   (allowlist_exact_and_only_refs rngW initState ("cout".toList) ("".toList) 0 0 0).2.2.2.2.2⟩

theorem visitOcc_eq (rng : Nat → Nat) (st : VisitorState) (occ : Occ) :
    visitOcc rng st occ =
      match occKey occ with
      | none => st
      | some k => recordKey rng st k (occLoc occ) := by
  cases occ with
  | varDecl name loc inMain => cases inMain <;> simp [visitOcc, VisitVarDecl, occKey, occLoc]
  | declRef name loc inMain =>
      cases inMain <;> cases hp : isPredefinedIdentifierL name <;>
        simp [visitOcc, VisitDeclRefExpr, occKey, occLoc, hp]
  | intLit w bits loc inMain => cases inMain <;> simp [visitOcc, VisitIntegerLiteral, occKey, occLoc]
  | strLit content loc inMain => cases inMain <;> simp [visitOcc, VisitStringLiteral, occKey, occLoc]
  | funcDecl name loc inMain => cases inMain <;> simp [visitOcc, VisitFunctionDecl, occKey, occLoc]

theorem nodupAppendSingleton {α : Type} (l : List α) (x : α) (hl : l.Nodup) (hx : x ∉ l) :
    (l ++ [x]).Nodup := by
  rw [List.nodup_append]
  exact ⟨hl, List.nodup_singleton x, by simpa using hx⟩

/-- C8: an alias entry is created exactly once, at the first occurrence of
its key, and never changed afterward: any step preserves every existing
key-to-alias binding and the distinctness of keys; an ineligible
occurrence changes nothing; an eligible occurrence appends its location
and either leaves the alias table untouched (key already present) or
appends exactly one fresh entry (key absent). -/
theorem aliasEntry_write_once (rng : Nat → Nat) (st : VisitorState) (occ : Occ) :
    (∀ k a, mapGet st.aliases k = some a → mapGet (visitOcc rng st occ).aliases k = some a) ∧
    ((st.aliases.map Prod.fst).Nodup → ((visitOcc rng st occ).aliases.map Prod.fst).Nodup) ∧
    (occKey occ = none → visitOcc rng st occ = st) ∧
    (∀ k, occKey occ = some k →
      (visitOcc rng st occ).nameLocations = recordLoc st.nameLocations k (occLoc occ) ∧
      ((mapGet st.aliases k).isSome = true → (visitOcc rng st occ).aliases = st.aliases) ∧
      (mapGet st.aliases k = none →
        (visitOcc rng st occ).aliases = st.aliases ++ [(k, (generateRandomAlias rng st.t).1)])) := by
  rw [visitOcc_eq]
  cases h : occKey occ with
  | none =>
      refine ⟨fun k a hka => hka, fun hnd => hnd, fun _ => rfl, ?_⟩
      intro k hk
      exact Option.noConfusion hk
  | some key =>
      refine ⟨?_, ?_, ?_, ?_⟩
      · intro k a hka
        rw [recordKey_aliases]
        split
        · exact hka
        · exact mapGet_append_some _ _ _ _ hka
      · intro hnd
        rw [recordKey_aliases]
        split
        · exact hnd
        · rename_i hcond
          rw [List.map_append]
          exact nodupAppendSingleton _ _ hnd (fun hmem =>
            hcond ((mapGet_isSome_iff _ _).mpr hmem))
      · intro h0
        exact Option.noConfusion h0
      · intro k hk
        have hkk : key = k := Option.some.inj hk
        subst hkk
        refine ⟨recordKey_nameLocations rng st key (occLoc occ), ?_, ?_⟩
        · intro hs
          rw [recordKey_aliases, if_pos hs]
        · intro hn
          rw [recordKey_aliases, if_neg (by simp [hn])]

theorem aliasEntry_write_once_witness :
    (∀ k a, mapGet initState.aliases k = some a →
      mapGet (visitOcc rngW initState (Occ.varDecl ("x".toList) 4 true)).aliases k = some a) ∧
    ((initState.aliases.map Prod.fst).Nodup →
      ((visitOcc rngW initState (Occ.varDecl ("x".toList) 4 true)).aliases.map Prod.fst).Nodup) ∧
    (occKey (Occ.varDecl ("x".toList) 4 true) = none →
      visitOcc rngW initState (Occ.varDecl ("x".toList) 4 true) = initState) ∧
    (∀ k, occKey (Occ.varDecl ("x".toList) 4 true) = some k →
      (visitOcc rngW initState (Occ.varDecl ("x".toList) 4 true)).nameLocations =
        recordLoc initState.nameLocations k (occLoc (Occ.varDecl ("x".toList) 4 true)) ∧
      ((mapGet initState.aliases k).isSome = true →
        (visitOcc rngW initState (Occ.varDecl ("x".toList) 4 true)).aliases = initState.aliases) ∧
      (mapGet initState.aliases k = none →
        (visitOcc rngW initState (Occ.varDecl ("x".toList) 4 true)).aliases =
          initState.aliases ++ [(k, (generateRandomAlias rngW initState.t).1)])) :=
  aliasEntry_write_once rngW initState (Occ.varDecl ("x".toList) 4 true)

/-- C9: every replacement issued by `ReplaceReferences` spans exactly
key-length many characters at the recorded location — the extent is the
length of the symbol key, not of the occurrence's own lexeme — so an
eligible reference spelled with the 8-character operator prefix yields an
edit of length `name.length - 8`, leaving the prefix-length surplus of
the lexeme unconsumed. -/
theorem replace_extent_is_key_length (rng : Nat → Nat) (st : VisitorState)
    (name : List Char) (loc : Nat) (hop : isOperatorL name = true) :
    (∀ e ∈ ReplaceReferences st, ∃ k a, (k, a) ∈ st.aliases ∧ e.len = k.length ∧ e.repl = a ∧
      e.offset ∈ locsOf st k) ∧
    (∃ a, Edit.mk loc (name.length - 8) a ∈
      ReplaceReferences (VisitDeclRefExpr rng st name loc true)) := by
  constructor
  · intro e he
    obtain ⟨k, a, hmem, hloc, he'⟩ := ReplaceReferences_mem_inv st e he
    refine ⟨k, a, hmem, ?_, ?_, hloc⟩
    · rw [he']
    · rw [he']
  · have heq : VisitDeclRefExpr rng st name loc true = recordKey rng st (name.drop 8) loc := by
      unfold VisitDeclRefExpr
      rw [if_pos (by simp), if_pos hop]
    rw [heq]
    obtain ⟨a, ha⟩ := recordKey_get_self rng st (name.drop 8) loc
    have hlocmem : loc ∈ locsOf (recordKey rng st (name.drop 8) loc) (name.drop 8) := by
      rw [locsOf_recordKey_self]; simp
    have hmem := mem_ReplaceReferences _ _ a loc ha hlocmem
    have hlen : (name.drop 8).length = name.length - 8 := by simp
    rw [hlen] at hmem
    exact ⟨a, hmem⟩

theorem replace_extent_is_key_length_witness :
    isOperatorL ("operator+".toList) = true ∧
    ((∀ e ∈ ReplaceReferences initState, ∃ k a, (k, a) ∈ initState.aliases ∧
        e.len = k.length ∧ e.repl = a ∧ e.offset ∈ locsOf initState k) ∧
      (∃ a, Edit.mk 0 (("operator+".toList).length - 8) a ∈
        ReplaceReferences (VisitDeclRefExpr rngW initState ("operator+".toList) 0 true))) :=
  ⟨by decide, replace_extent_is_key_length rngW initState ("operator+".toList) 0 (by decide)⟩

/-- C6 counterexample: with correct usage and both files opening, `main`
returns 0 even when the external parse fails (`runToolOnCode`'s result is
discarded), refuting "the process terminates unsuccessfully". -/
theorem parse_failure_exit_zero : ¬ (mainExit true true true false ≠ 0) :=
  fun h => h rfl

/-- C6 amended: a parse failure is not propagated: once the argument count
is right and both files open, the exit code is 0 no matter whether the
external parser succeeded; only usage and file-open errors are fatal. -/
theorem parse_failure_not_propagated (p q : Bool) :
    mainExit true true true p = mainExit true true true q ∧
    mainExit true true true p = 0 ∧
    mainExit false p q true = 1 :=
  ⟨rfl, rfl, rfl⟩

/-- C4 counterexample: a 32-bit literal whose value has the top bit set
(`0xFFFFFFFF`, value 4294967295) is keyed as the signed rendering "-1",
not the unsigned-magnitude decimal "4294967295". -/
theorem intLiteral_unsigned_key_counterexample :
    (runVisitor rngW [Occ.intLit 32 4294967295 0 true]).aliases.map Prod.fst = [['-', '1']] ∧
    (['-', '1'] : List Char) ≠ "4294967295".toList :=
  ⟨by decide, by decide⟩

/-- C4 amended: an eligible integer literal is keyed by the radix-10
rendering of its APInt with `Signed = true` at the width of its type:
the plain decimal magnitude when the top bit is clear, and a minus sign
followed by the two's-complement negation when the top bit is set. -/
theorem intLiteral_key_rendering (rng : Nat → Nat) (st : VisitorState) (w bits loc : Nat) :
    VisitIntegerLiteral rng st w bits loc true = recordKey rng st (apIntSignedDecimal w bits) loc ∧
    (2 * (bits % 2 ^ w) < 2 ^ w → apIntSignedDecimal w bits = Nat.toDigits 10 (bits % 2 ^ w)) ∧
    (2 ^ w ≤ 2 * (bits % 2 ^ w) →
      apIntSignedDecimal w bits = '-' :: Nat.toDigits 10 (2 ^ w - bits % 2 ^ w)) := by
  refine ⟨rfl, ?_, ?_⟩
  · intro h
    unfold apIntSignedDecimal
    rw [if_neg (by omega)]
  · intro h
    unfold apIntSignedDecimal
    rw [if_pos h]

theorem intLiteral_key_rendering_witness :
    (2 * (5 % 2 ^ 32) < 2 ^ 32 ∧ apIntSignedDecimal 32 5 = Nat.toDigits 10 (5 % 2 ^ 32)) ∧
    (2 ^ 32 ≤ 2 * (4294967295 % 2 ^ 32) ∧
      apIntSignedDecimal 32 4294967295 = '-' :: Nat.toDigits 10 (2 ^ 32 - 4294967295 % 2 ^ 32)) :=
  ⟨⟨by decide, (intLiteral_key_rendering rngW initState 32 5 0).2.1 (by decide)⟩,
   ⟨by decide, (intLiteral_key_rendering rngW initState 32 4294967295 0).2.2 (by decide)⟩⟩

theorem recordKey_keys_nodup (rng : Nat → Nat) (st : VisitorState) (k : List Char) (loc : Nat)
    (hnd : (st.aliases.map Prod.fst).Nodup) :
    ((recordKey rng st k loc).aliases.map Prod.fst).Nodup := by
  rw [recordKey_aliases]
  split
  · exact hnd
  · rename_i hcond
    rw [List.map_append]
    exact nodupAppendSingleton _ _ hnd (fun hmem => hcond ((mapGet_isSome_iff _ _).mpr hmem))

theorem visitOcc_keys_nodup (rng : Nat → Nat) (st : VisitorState) (occ : Occ)
    (hnd : (st.aliases.map Prod.fst).Nodup) :
    ((visitOcc rng st occ).aliases.map Prod.fst).Nodup := by
  rw [visitOcc_eq]
  cases occKey occ with
  | none => exact hnd
  | some key => exact recordKey_keys_nodup rng st key (occLoc occ) hnd

theorem visitOcc_keys_mem (rng : Nat → Nat) (st : VisitorState) (occ : Occ) (k : List Char) :
    k ∈ (visitOcc rng st occ).aliases.map Prod.fst ↔
      (k ∈ st.aliases.map Prod.fst ∨ occKey occ = some k) := by
  rw [visitOcc_eq]
  cases h : occKey occ with
  | none => simp
  | some key =>
      rw [recordKey_aliases]
      split
      · rename_i hcond
        constructor
        · intro hm
          exact Or.inl hm
        · rintro (hm | hk)
          · exact hm
          · have hkk : key = k := Option.some.inj hk
            subst hkk
            exact (mapGet_isSome_iff _ _).mp hcond
      · rw [List.map_append]
        constructor
        · intro hm
          rcases List.mem_append.mp hm with hm | hm
          · exact Or.inl hm
          · right
            have hkk : k = key := by simpa using hm
            rw [hkk]
        · rintro (hm | hk)
          · exact List.mem_append.mpr (Or.inl hm)
          · refine List.mem_append.mpr (Or.inr ?_)
            have hkk : key = k := Option.some.inj hk
            subst hkk
            simp

theorem foldVisit_keys (rng : Nat → Nat) :
    ∀ (occs : List Occ) (st : VisitorState),
      (((st.aliases.map Prod.fst).Nodup) →
        ((occs.foldl (visitOcc rng) st).aliases.map Prod.fst).Nodup) ∧
      (∀ k, k ∈ (occs.foldl (visitOcc rng) st).aliases.map Prod.fst ↔
        (k ∈ st.aliases.map Prod.fst ∨ k ∈ eligibleKeys occs)) := by
  intro occs
  induction occs with
  | nil => intro st; simp [eligibleKeys]
  | cons occ occs ih =>
    intro st
    rw [List.foldl_cons]
    constructor
    · intro hnd
      exact (ih (visitOcc rng st occ)).1 (visitOcc_keys_nodup rng st occ hnd)
    · intro k
      rw [(ih (visitOcc rng st occ)).2 k, visitOcc_keys_mem]
      cases h : occKey occ with
      | none =>
          have helig : eligibleKeys (occ :: occs) = eligibleKeys occs := by
            simp [eligibleKeys, List.filterMap_cons, h]
          rw [helig]
          simp
      | some key =>
          have helig : eligibleKeys (occ :: occs) = key :: eligibleKeys occs := by
            simp [eligibleKeys, List.filterMap_cons, h]
          rw [helig]
          simp only [List.mem_cons, Option.some.injEq]
          constructor
          · rintro ((hm | hk) | he)
            · exact Or.inl hm
            · exact Or.inr (Or.inl hk.symm)
            · exact Or.inr (Or.inr he)
          · rintro (hm | (hk | he))
            · exact Or.inl (Or.inl hm)
            · exact Or.inl (Or.inr hk.symm)
            · exact Or.inr he

/-- C3 amended: for an input in which exactly N distinct eligible symbol
keys are observed, the emitted definitions block contains exactly N
define-lines, one per distinct key (the keys of the alias table are
distinct and are exactly the eligible keys of the stream); the aliases on
those lines, however, need not be pairwise distinct, as the generator
performs no uniqueness check. -/
theorem definitions_one_per_key (rng : Nat → Nat) (occs : List Occ) :
    (InsertAliases (runVisitor rng occs)).length = ((eligibleKeys occs).dedup).length ∧
    ((runVisitor rng occs).aliases.map Prod.fst).Nodup ∧
    (∀ k, k ∈ (runVisitor rng occs).aliases.map Prod.fst ↔ k ∈ eligibleKeys occs) ∧
    (∀ line ∈ InsertAliases (runVisitor rng occs),
      ∃ e ∈ (runVisitor rng occs).aliases, line = "#define ".toList ++ e.2 ++ [' '] ++ e.1) := by
  have hfold := foldVisit_keys rng occs initState
  have hnd : ((runVisitor rng occs).aliases.map Prod.fst).Nodup := hfold.1 (by simp [initState])
  have hmem : ∀ k, k ∈ (runVisitor rng occs).aliases.map Prod.fst ↔ k ∈ eligibleKeys occs := by
    intro k
    rw [show runVisitor rng occs = occs.foldl (visitOcc rng) initState from rfl, hfold.2 k]
    simp [initState]
  refine ⟨?_, hnd, hmem, ?_⟩
  · have hperm : ((runVisitor rng occs).aliases.map Prod.fst).Perm ((eligibleKeys occs).dedup) := by
      rw [List.perm_ext_iff_of_nodup hnd (List.nodup_dedup _)]
      intro k
      rw [hmem k, List.mem_dedup]
    calc (InsertAliases (runVisitor rng occs)).length
        = (runVisitor rng occs).aliases.length := by simp [InsertAliases]
      _ = ((runVisitor rng occs).aliases.map Prod.fst).length := by simp
      _ = _ := hperm.length_eq
  · intro line hline
    obtain ⟨e, he, rfl⟩ := List.mem_map.mp hline
    exact ⟨e, he, rfl⟩

theorem definitions_one_per_key_witness :
    (InsertAliases (runVisitor rngW occsW)).length = ((eligibleKeys occsW).dedup).length ∧
    ((runVisitor rngW occsW).aliases.map Prod.fst).Nodup ∧
    (∀ k, k ∈ (runVisitor rngW occsW).aliases.map Prod.fst ↔ k ∈ eligibleKeys occsW) ∧
    (∀ line ∈ InsertAliases (runVisitor rngW occsW),
      ∃ e ∈ (runVisitor rngW occsW).aliases, line = "#define ".toList ++ e.2 ++ [' '] ++ e.1) :=
  definitions_one_per_key rngW occsW

/-- C3 counterexample: the stream of `int x = 5;` observes the two distinct
keys "x" and "5" and emits two define-lines, yet under a random stream
that repeats, both lines carry the same alias: the aliases are not
pairwise distinct. -/
theorem definitions_distinct_alias_counterexample :
    ((runVisitor (fun _ => 0) occsW).aliases.map Prod.fst).Nodup ∧
    (InsertAliases (runVisitor (fun _ => 0) occsW)).length = 2 ∧
    ¬ ((runVisitor (fun _ => 0) occsW).aliases.map Prod.snd).Nodup :=
  ⟨by decide, by decide, by decide⟩

/- Textual substitution used to state the round-trip property: replace
every (leftmost, non-overlapping) occurrence of `pat` by `repl`.  Written
with explicit fuel so the kernel can evaluate it. -/
def replaceAllGo (pat repl : List Char) : Nat → List Char → List Char
  | 0, s => s
  | _ + 1, [] => []
  | fuel + 1, c :: rest =>
      if pat ≠ [] ∧ pat.isPrefixOf (c :: rest) = true then
        repl ++ replaceAllGo pat repl fuel ((c :: rest).drop pat.length)
      else
        c :: replaceAllGo pat repl fuel rest

def replaceAll (pat repl s : List Char) : List Char :=
  replaceAllGo pat repl s.length s

/- Substituting every alias of the definitions list by its key text, in
list order: the claim's "substitute each alias with its macro's
right-hand side at every occurrence". -/
def substAll (defs : List (List Char × List Char)) (s : List Char) : List Char :=
  defs.foldl (fun b d => replaceAll d.2 d.1 b) s

theorem isPrefixOf_exists : ∀ (xs s : List Char), xs.isPrefixOf s = true → ∃ u, s = xs ++ u := by
  intro xs
  induction xs with
  | nil => intro s _; exact ⟨s, rfl⟩
  | cons c xs ih =>
    intro s h
    cases s with
    | nil => simp [List.isPrefixOf] at h
    | cons b rest =>
        simp only [List.isPrefixOf, Bool.and_eq_true, beq_iff_eq] at h
        obtain ⟨h1, h2⟩ := h
        obtain ⟨u, rfl⟩ := ih rest h2
        exact ⟨u, by rw [h1, List.cons_append]⟩

theorem replaceAllGo_congr (pat repl : List Char) :
    ∀ (f1 f2 : Nat) (s : List Char), s.length ≤ f1 → s.length ≤ f2 →
      replaceAllGo pat repl f1 s = replaceAllGo pat repl f2 s := by
  intro f1
  induction f1 with
  | zero =>
    intro f2 s h1 _
    have hs : s = [] := List.length_eq_zero.mp (Nat.le_zero.mp h1)
    subst hs
    cases f2 <;> rfl
  | succ f1 ih =>
    intro f2 s h1 h2
    cases s with
    | nil => cases f2 <;> rfl
    | cons c rest =>
      cases f2 with
      | zero => simp at h2
      | succ f2 =>
        simp only [replaceAllGo]
        by_cases hc : pat ≠ [] ∧ pat.isPrefixOf (c :: rest) = true
        · rw [if_pos hc, if_pos hc]
          have hplen : 1 ≤ pat.length := by
            cases pat with
            | nil => exact (hc.1 rfl).elim
            | cons a b => simp
          have hd : ((c :: rest).drop pat.length).length ≤ f1 := by
            rw [List.length_drop]
            simp only [List.length_cons] at h1 ⊢
            omega
          have hd2 : ((c :: rest).drop pat.length).length ≤ f2 := by
            rw [List.length_drop]
            simp only [List.length_cons] at h2 ⊢
            omega
          rw [ih f2 _ hd hd2]
        · rw [if_neg hc, if_neg hc]
          have hr1 : rest.length ≤ f1 := by simp only [List.length_cons] at h1; omega
          have hr2 : rest.length ≤ f2 := by simp only [List.length_cons] at h2; omega
          rw [ih f2 rest hr1 hr2]

theorem replaceAll_nil (pat repl : List Char) : replaceAll pat repl [] = [] := rfl

theorem replaceAll_pos (pat repl s : List Char) (hne : pat ≠ [])
    (hpre : pat.isPrefixOf s = true) :
    replaceAll pat repl s = repl ++ replaceAll pat repl (s.drop pat.length) := by
  have hplen : 1 ≤ pat.length := by
    cases pat with
    | nil => exact (hne rfl).elim
    | cons a b => simp
  cases s with
  | nil =>
    cases pat with
    | nil => exact (hne rfl).elim
    | cons a b => simp [List.isPrefixOf] at hpre
  | cons c rest =>
    show replaceAllGo pat repl (rest.length + 1) (c :: rest) = _
    simp only [replaceAllGo]
    rw [if_pos ⟨hne, hpre⟩]
    congr 1
    apply replaceAllGo_congr
    · rw [List.length_drop]; simp only [List.length_cons]; omega
    · rw [List.length_drop]

theorem replaceAll_neg (pat repl : List Char) (c : Char) (rest : List Char)
    (h : pat = [] ∨ pat.isPrefixOf (c :: rest) = false) :
    replaceAll pat repl (c :: rest) = c :: replaceAll pat repl rest := by
  show replaceAllGo pat repl (rest.length + 1) (c :: rest) = _
  simp only [replaceAllGo]
  rw [if_neg ?hc]
  case hc =>
    rcases h with h | h
    · intro hc; exact hc.1 h
    · intro hc; rw [h] at hc; exact Bool.false_ne_true hc.2
  rfl

theorem replaceAll_no_occurrence :
    ∀ (s pat repl : List Char), (∀ p, ¬ pat.isPrefixOf (s.drop p) = true) →
      replaceAll pat repl s = s := by
  intro s
  induction s with
  | nil => intro pat repl _; rfl
  | cons c rest ih =>
    intro pat repl h
    have h0 : ¬ pat.isPrefixOf (c :: rest) = true := h 0
    rw [replaceAll_neg pat repl c rest (Or.inr (by
      cases hb : pat.isPrefixOf (c :: rest)
      · rfl
      · exact (h0 hb).elim))]
    rw [ih pat repl (fun p => h (p + 1))]

theorem replaceAll_skip :
    ∀ (x y pat repl : List Char),
      (∀ p, p < x.length → ¬ pat.isPrefixOf ((x ++ y).drop p) = true) →
      replaceAll pat repl (x ++ y) = x ++ replaceAll pat repl y := by
  intro x
  induction x with
  | nil => intro y pat repl _; simp
  | cons c x ih =>
    intro y pat repl h
    rw [List.cons_append]
    have h0 : ¬ pat.isPrefixOf (c :: (x ++ y)) = true := by
      have := h 0 (by simp)
      simpa using this
    rw [replaceAll_neg pat repl c (x ++ y) (Or.inr (by
      cases hb : pat.isPrefixOf (c :: (x ++ y))
      · rfl
      · exact (h0 hb).elim))]
    rw [ih y pat repl (fun p hp => h (p + 1) (by simp only [List.length_cons]; omega))]
    simp

theorem replaceAll_cross :
    ∀ (x pat y repl : List Char), pat ≠ [] →
      (∀ p, p < x.length → ¬ pat.isPrefixOf ((x ++ pat ++ y).drop p) = true) →
      replaceAll pat repl (x ++ pat ++ y) = x ++ repl ++ replaceAll pat repl y := by
  intro x
  induction x with
  | nil =>
    intro pat y repl hne _
    simp only [List.nil_append]
    rw [replaceAll_pos pat repl (pat ++ y) hne (isPrefixOf_append_self pat y)]
    rw [dropAppendLen _ _ _ rfl]
  | cons c x ih =>
    intro pat y repl hne h
    rw [List.cons_append, List.cons_append]
    have h0 : ¬ pat.isPrefixOf (c :: (x ++ pat ++ y)) = true := by
      have := h 0 (by simp)
      simpa using this
    rw [replaceAll_neg pat repl c (x ++ pat ++ y) (Or.inr (by
      cases hb : pat.isPrefixOf (c :: (x ++ pat ++ y))
      · rfl
      · exact (h0 hb).elim))]
    rw [ih pat y repl hne (fun p hp => h (p + 1) (by simp only [List.length_cons]; omega))]
    simp

/- The rewritten buffer viewed as interleaved untouched segments and
replacement tokens. -/
def spliceT : List (List Char) → List (List Char) → List Char
  | [], _ => []
  | s :: _, [] => s
  | s :: segs, t :: toks => s ++ t ++ spliceT segs toks

/- The untouched segments of the buffer cut out by a sorted edit list. -/
def segsOf : List Char → Nat → List Edit → List (List Char)
  | buf, _, [] => [buf]
  | buf, base, e :: es =>
      buf.take (e.offset - base) :: segsOf (buf.drop (e.offset + e.len - base)) (e.offset + e.len) es

theorem applyEdits_eq_spliceT :
    ∀ (es : List Edit) (buf : List Char) (base : Nat),
      applyEdits buf base es = spliceT (segsOf buf base es) (es.map (fun e => e.repl)) := by
  intro es
  induction es with
  | nil => intro buf base; rfl
  | cons e es ih =>
    intro buf base
    simp only [applyEdits, segsOf, List.map_cons, spliceT]
    rw [ih]

theorem spliceT_orig :
    ∀ (es : List Edit) (buf : List Char) (base : Nat),
      (∀ e ∈ es, base ≤ e.offset) →
      (∀ e ∈ es, e.offset + e.len ≤ base + buf.length) →
      List.Pairwise (fun a b => a.offset + a.len ≤ b.offset) es →
      spliceT (segsOf buf base es) (es.map (fun e => sliceL buf (e.offset - base) e.len)) = buf := by
  intro es
  induction es with
  | nil => intro buf base _ _ _; rfl
  | cons e es ih =>
    intro buf base hlo hhi hch
    have hlo0 : base ≤ e.offset := hlo e (by simp)
    have hhi0 : e.offset + e.len ≤ base + buf.length := hhi e (by simp)
    simp only [segsOf, List.map_cons, spliceT]
    have hlo' : ∀ e' ∈ es, e.offset + e.len ≤ e'.offset := fun e' he' =>
      List.rel_of_pairwise_cons hch he'
    have hhi' : ∀ e' ∈ es,
        e'.offset + e'.len ≤ (e.offset + e.len) + (buf.drop (e.offset + e.len - base)).length := by
      intro e' he'
      have h1 := hhi e' (List.mem_cons_of_mem _ he')
      rw [List.length_drop]
      omega
    have hmap : List.map (fun e' => sliceL buf (e'.offset - base) e'.len) es =
        List.map (fun e' => sliceL (buf.drop (e.offset + e.len - base))
          (e'.offset - (e.offset + e.len)) e'.len) es := by
      apply List.map_congr_left
      intro e' he'
      unfold sliceL
      rw [List.drop_drop]
      have := hlo' e' he'
      congr 2
      omega
    rw [hmap, ih _ _ hlo' hhi' hch.of_cons]
    have h1 : buf.drop (e.offset + e.len - base) = (buf.drop (e.offset - base)).drop e.len := by
      rw [List.drop_drop]
      congr 1
      omega
    calc buf.take (e.offset - base) ++ sliceL buf (e.offset - base) e.len ++
          buf.drop (e.offset + e.len - base)
        = buf.take (e.offset - base) ++
            ((buf.drop (e.offset - base)).take e.len ++ (buf.drop (e.offset - base)).drop e.len) := by
          rw [List.append_assoc, h1]; rfl
      _ = buf.take (e.offset - base) ++ buf.drop (e.offset - base) := by
          rw [List.take_append_drop]
      _ = buf := List.take_append_drop _ buf

/- Positions, in a spliced buffer, of the tokens equal to `pat`. -/
def tokPosOf (pat : List Char) : Nat → List (List Char) → List (List Char) → List Nat
  | acc, s :: segs, t :: toks =>
      if t = pat then
        (acc + s.length) :: tokPosOf pat (acc + s.length + t.length) segs toks
      else tokPosOf pat (acc + s.length + t.length) segs toks
  | _, _, _ => []

theorem tokPosOf_shift (pat : List Char) :
    ∀ (segs toks : List (List Char)) (a c : Nat),
      tokPosOf pat (a + c) segs toks = (tokPosOf pat c segs toks).map (a + ·) := by
  intro segs
  induction segs with
  | nil => intro toks a c; cases toks <;> rfl
  | cons s segs ih =>
    intro toks a c
    cases toks with
    | nil => rfl
    | cons t toks =>
      simp only [tokPosOf]
      by_cases ht : t = pat
      · rw [if_pos ht, if_pos ht, List.map_cons]
        congr 1
        · omega
        · rw [show a + c + s.length + t.length = a + (c + s.length + t.length) from by omega, ih]
      · rw [if_neg ht, if_neg ht,
          show a + c + s.length + t.length = a + (c + s.length + t.length) from by omega, ih]

theorem tokPosOf_lb (pat : List Char) :
    ∀ (segs toks : List (List Char)) (acc q : Nat), q ∈ tokPosOf pat acc segs toks → acc ≤ q := by
  intro segs
  induction segs with
  | nil => intro toks acc q h; cases toks <;> simp [tokPosOf] at h
  | cons s segs ih =>
    intro toks acc q h
    cases toks with
    | nil => simp [tokPosOf] at h
    | cons t toks =>
      simp only [tokPosOf] at h
      by_cases ht : t = pat
      · rw [if_pos ht] at h
        rcases List.mem_cons.mp h with rfl | h
        · omega
        · have := ih _ _ _ h
          omega
      · rw [if_neg ht] at h
        have := ih _ _ _ h
        omega

theorem replaceAll_spliceT (pat repl : List Char) (hpat : pat ≠ []) :
    ∀ (toks segs : List (List Char)), (∀ t ∈ toks, t ≠ []) →
      (∀ p, pat.isPrefixOf ((spliceT segs toks).drop p) = true → p ∈ tokPosOf pat 0 segs toks) →
      replaceAll pat repl (spliceT segs toks) =
        spliceT segs (toks.map (fun t => if t = pat then repl else t)) := by
  have hplen : 1 ≤ pat.length := by
    cases pat with
    | nil => exact (hpat rfl).elim
    | cons a b => simp
  intro toks
  induction toks with
  | nil =>
    intro segs _ hocc
    cases segs with
    | nil => rfl
    | cons s segs =>
      show replaceAll pat repl s = s
      exact replaceAll_no_occurrence s pat repl (fun p hp => by
        have h := hocc p hp
        simp [tokPosOf] at h)
  | cons t toks ih =>
    intro segs hne hocc
    cases segs with
    | nil => rfl
    | cons s segs =>
      have hne' : ∀ t' ∈ toks, t' ≠ [] := fun t' ht' => hne t' (List.mem_cons_of_mem _ ht')
      by_cases ht : t = pat
      · subst ht
        have hnb : ∀ p, p < s.length →
            ¬ t.isPrefixOf (((s ++ t) ++ spliceT segs toks).drop p) = true := by
          intro p hp hpre
          have hmem := hocc p hpre
          simp [tokPosOf] at hmem
          rcases hmem with h1 | h1
          · omega
          · have := tokPosOf_lb t segs toks _ _ h1
            omega
        have htrans : ∀ p, t.isPrefixOf ((spliceT segs toks).drop p) = true →
            p ∈ tokPosOf t 0 segs toks := by
          intro p hp
          have hp' : t.isPrefixOf
              ((spliceT (s :: segs) (t :: toks)).drop (s.length + t.length + p)) = true := by
            rw [show spliceT (s :: segs) (t :: toks) = (s ++ t) ++ spliceT segs toks from rfl,
              show s.length + t.length + p = (s ++ t).length + p from by
                rw [List.length_append], dropAppendAdd]
            exact hp
          have hmem := hocc _ hp'
          simp [tokPosOf] at hmem
          rcases hmem with h1 | h1
          · exact absurd h1 (by omega)
          · have hsh := tokPosOf_shift t segs toks (s.length + t.length) 0
            rw [Nat.add_zero] at hsh
            rw [hsh] at h1
            obtain ⟨q, hq, hqe⟩ := List.mem_map.mp h1
            have hqp : q = p := by omega
            rw [← hqp]
            exact hq
        rw [show spliceT (s :: segs) (t :: toks) = (s ++ t) ++ spliceT segs toks from rfl,
          replaceAll_cross s t (spliceT segs toks) repl hpat hnb,
          ih segs hne' htrans]
        simp [spliceT]
      · have hnb : ∀ p, p < (s ++ t).length →
            ¬ pat.isPrefixOf (((s ++ t) ++ spliceT segs toks).drop p) = true := by
          intro p hp hpre
          have hmem := hocc p hpre
          simp [tokPosOf, ht] at hmem
          have := tokPosOf_lb pat segs toks _ _ hmem
          rw [List.length_append] at hp
          omega
        have htrans : ∀ p, pat.isPrefixOf ((spliceT segs toks).drop p) = true →
            p ∈ tokPosOf pat 0 segs toks := by
          intro p hp
          have hp' : pat.isPrefixOf
              ((spliceT (s :: segs) (t :: toks)).drop (s.length + t.length + p)) = true := by
            rw [show spliceT (s :: segs) (t :: toks) = (s ++ t) ++ spliceT segs toks from rfl,
              show s.length + t.length + p = (s ++ t).length + p from by
                rw [List.length_append], dropAppendAdd]
            exact hp
          have hmem := hocc _ hp'
          simp [tokPosOf, ht] at hmem
          have hsh := tokPosOf_shift pat segs toks (s.length + t.length) 0
          rw [Nat.add_zero] at hsh
          rw [hsh] at hmem
          obtain ⟨q, hq, hqe⟩ := List.mem_map.mp hmem
          have hqp : q = p := by omega
          rw [← hqp]
          exact hq
        rw [show spliceT (s :: segs) (t :: toks) = (s ++ t) ++ spliceT segs toks from rfl,
          replaceAll_skip (s ++ t) (spliceT segs toks) pat repl hnb,
          ih segs hne' htrans]
        simp [spliceT, ht]

/- The cumulative effect of the substitution fold on a single token. -/
def applySubsts (defs : List (List Char × List Char)) (t : List Char) : List Char :=
  defs.foldl (fun t d => if t = d.2 then d.1 else t) t

theorem applySubsts_fix :
    ∀ (defs : List (List Char × List Char)) (x : List Char),
      (∀ d ∈ defs, x ≠ d.2) → applySubsts defs x = x := by
  intro defs
  induction defs with
  | nil => intro x _; rfl
  | cons d defs ih =>
    intro x h
    show applySubsts defs (if x = d.2 then d.1 else x) = x
    rw [if_neg (h d (by simp))]
    exact ih x (fun d' hd' => h d' (List.mem_cons_of_mem _ hd'))

theorem applySubsts_mem :
    ∀ (defs : List (List Char × List Char)) (k a : List Char),
      (k, a) ∈ defs → (defs.map Prod.snd).Nodup →
      (∀ p ∈ defs, ∀ q ∈ defs, p.1 ≠ q.2) →
      applySubsts defs a = k := by
  intro defs
  induction defs with
  | nil => intro k a h _ _; simp at h
  | cons d defs ih =>
    intro k a hmem hnd hka
    rw [List.map_cons] at hnd
    have hnd' := List.nodup_cons.mp hnd
    rcases List.mem_cons.mp hmem with heq | hmem'
    · subst heq
      show applySubsts defs (if a = (k, a).2 then (k, a).1 else a) = k
      rw [if_pos rfl]
      apply applySubsts_fix
      intro d' hd'
      exact hka (k, a) (List.mem_cons_self _ _) d' (List.mem_cons_of_mem _ hd')
    · show applySubsts defs (if a = d.2 then d.1 else a) = k
      have hane : a ≠ d.2 := by
        intro he
        exact hnd'.1 (he ▸ (List.mem_map_of_mem Prod.snd hmem'))
      rw [if_neg hane]
      exact ih k a hmem' hnd'.2
        (fun p hp q hq => hka p (List.mem_cons_of_mem _ hp) q (List.mem_cons_of_mem _ hq))

/- No stray occurrence: every occurrence of `pat` in the spliced buffer
starts at the position of a `pat` token. -/
def noStray (pat : List Char) (segs toks : List (List Char)) : Bool :=
  (List.range (spliceT segs toks).length).all
    (fun p => !(pat.isPrefixOf ((spliceT segs toks).drop p)) ||
      decide (p ∈ tokPosOf pat 0 segs toks))

/- The per-step side conditions of the substitution fold: at each step the
alias is nonempty, all current tokens are nonempty, and the alias occurs
in the current buffer only at its own token slots. -/
def foldHyp (segs : List (List Char)) : List (List Char × List Char) → List (List Char) → Bool
  | [], _ => true
  | d :: defs, toks =>
      (!(d.2.isEmpty)) && toks.all (fun t => !(t.isEmpty)) && noStray d.2 segs toks &&
        foldHyp segs defs (toks.map (fun t => if t = d.2 then d.1 else t))

theorem substAll_spliceT (segs : List (List Char)) :
    ∀ (defs : List (List Char × List Char)) (toks : List (List Char)),
      foldHyp segs defs toks = true →
      substAll defs (spliceT segs toks) = spliceT segs (toks.map (applySubsts defs)) := by
  intro defs
  induction defs with
  | nil =>
    intro toks _
    show spliceT segs toks = spliceT segs (toks.map (applySubsts []))
    have hmapid : toks.map (applySubsts []) = toks := by
      calc toks.map (applySubsts []) = toks.map id := List.map_congr_left (fun t _ => rfl)
        _ = toks := List.map_id toks
    rw [hmapid]
  | cons d defs ih =>
    intro toks h
    simp only [foldHyp, Bool.and_eq_true] at h
    obtain ⟨⟨⟨hd2, htoks⟩, hstray⟩, hrest⟩ := h
    show substAll defs (replaceAll d.2 d.1 (spliceT segs toks)) = _
    have hd2' : d.2 ≠ [] := by
      intro he
      rw [he] at hd2
      simp at hd2
    have htoks' : ∀ t ∈ toks, t ≠ [] := by
      intro t ht hemp
      have hone := List.all_eq_true.mp htoks t ht
      rw [hemp] at hone
      simp at hone
    have hstray' : ∀ p, d.2.isPrefixOf ((spliceT segs toks).drop p) = true →
        p ∈ tokPosOf d.2 0 segs toks := by
      intro p hp
      by_cases hlt : p < (spliceT segs toks).length
      · have hone := List.all_eq_true.mp hstray p (List.mem_range.mpr hlt)
        rw [hp] at hone
        simpa using hone
      · exfalso
        have hdrop : (spliceT segs toks).drop p = [] := List.drop_eq_nil_of_le (by omega)
        rw [hdrop] at hp
        cases hd : d.2 with
        | nil => exact hd2' hd
        | cons c l => rw [hd] at hp; simp [List.isPrefixOf] at hp
    rw [replaceAll_spliceT d.2 d.1 hd2' toks segs htoks' hstray', ih _ hrest, List.map_map]
    apply congrArg
    apply List.map_congr_left
    intro t _
    rfl

/-- C2 amended: substituting each alias of the emitted definitions, in
definition order, for its macro's right-hand side at every one of its
textual occurrences in the rewritten buffer reproduces the original
buffer exactly, PROVIDED the sorted recorded spans are pairwise
non-overlapping and in bounds, each recorded span's original text equals
its key, the generated aliases are pairwise distinct, no key equals an
alias, and at each substitution step the alias occurs in the current
buffer only at its own replacement slots. -/
theorem roundtrip_substitution (rng : Nat → Nat) (occs : List Occ) (buf : List Char)
    (st : VisitorState) (hst : st = runVisitor rng occs)
    (hov : List.Pairwise (fun a b => a.offset + a.len ≤ b.offset) (sortedEdits st))
    (hbd : ∀ e ∈ sortedEdits st, e.offset + e.len ≤ buf.length)
    (hkey : ∀ d ∈ st.aliases, ∀ loc ∈ locsOf st d.1, sliceL buf loc d.1.length = d.1)
    (hnd : (st.aliases.map Prod.snd).Nodup)
    (hka : ∀ p ∈ st.aliases, ∀ q ∈ st.aliases, p.1 ≠ q.2)
    (hfold : foldHyp (segsOf buf 0 (sortedEdits st)) st.aliases
      ((sortedEdits st).map (fun e => e.repl)) = true) :
    substAll st.aliases (rewriteResult buf st) = buf := by
  have hlo : ∀ e ∈ sortedEdits st, 0 ≤ e.offset := fun e _ => Nat.zero_le _
  have hhi : ∀ e ∈ sortedEdits st, e.offset + e.len ≤ 0 + buf.length := by
    intro e he
    simpa using hbd e he
  have h1 : rewriteResult buf st =
      spliceT (segsOf buf 0 (sortedEdits st)) ((sortedEdits st).map (fun e => e.repl)) :=
    applyEdits_eq_spliceT (sortedEdits st) buf 0
  rw [h1, substAll_spliceT _ _ _ hfold]
  have hmap : ((sortedEdits st).map (fun e => e.repl)).map (applySubsts st.aliases) =
      (sortedEdits st).map (fun e => sliceL buf (e.offset - 0) e.len) := by
    rw [List.map_map]
    apply List.map_congr_left
    intro e he
    have hmem : e ∈ ReplaceReferences st := by
      have hperm := List.perm_insertionSort (fun a b => a.offset ≤ b.offset) (ReplaceReferences st)
      exact hperm.mem_iff.mp he
    obtain ⟨k, a, hkmem, hloc, hedit⟩ := ReplaceReferences_mem_inv st e hmem
    have hrepl : e.repl = a := by rw [hedit]
    have hlen : e.len = k.length := by rw [hedit]
    show applySubsts st.aliases e.repl = sliceL buf (e.offset - 0) e.len
    rw [hrepl, hlen, Nat.sub_zero]
    rw [applySubsts_mem st.aliases k a hkmem hnd hka]
    exact (hkey (k, a) hkmem e.offset hloc).symm
  rw [hmap]
  exact spliceT_orig (sortedEdits st) buf 0 hlo hhi hov

/-- C2 counterexample: on the unit `int x = 5;` with a repeating random
stream, the two keys "x" and "5" receive the same alias; substituting
each alias of the emitted definitions at every one of its occurrences in
the rewritten output yields `int x = x;`, not the original buffer, so
the claim fails as stated for that input program. -/
theorem roundtrip_textual_counterexample :
    substAll (runVisitor (fun _ => 0) occsW).aliases
      (rewriteResult bufW (runVisitor (fun _ => 0) occsW)) ≠ bufW := by
  decide

theorem roundtrip_substitution_witness :
    (List.Pairwise (fun a b => a.offset + a.len ≤ b.offset) (sortedEdits (runVisitor rngW occsW)) ∧
      (∀ e ∈ sortedEdits (runVisitor rngW occsW), e.offset + e.len ≤ bufW.length) ∧
      (∀ d ∈ (runVisitor rngW occsW).aliases, ∀ loc ∈ locsOf (runVisitor rngW occsW) d.1,
        sliceL bufW loc d.1.length = d.1) ∧
      ((runVisitor rngW occsW).aliases.map Prod.snd).Nodup ∧
      (∀ p ∈ (runVisitor rngW occsW).aliases, ∀ q ∈ (runVisitor rngW occsW).aliases, p.1 ≠ q.2) ∧
      foldHyp (segsOf bufW 0 (sortedEdits (runVisitor rngW occsW))) (runVisitor rngW occsW).aliases
        ((sortedEdits (runVisitor rngW occsW)).map (fun e => e.repl)) = true) ∧
    substAll (runVisitor rngW occsW).aliases
      (rewriteResult bufW (runVisitor rngW occsW)) = bufW :=
  ⟨⟨by decide, by decide, by decide, by decide, by decide, by decide⟩,
    roundtrip_substitution rngW occsW bufW _ rfl (by decide) (by decide) (by decide)
      (by decide) (by decide) (by decide)⟩
